import Mathlib

/-!
Shallow embedding of the local-rag-simple pipeline
(knowledge_base.py, retrieval_system.py, augmentation.py, generation.py)
and proofs of the specification claims.

Python strings are modelled as `List Char`; Python floats as `ℚ`;
Python dicts as structures; raised exceptions as `Except`/`Option`.
-/

namespace Rag

/-! ## knowledge_base.py — sentence tokenizer and chunker -/

/-- A character matched by the regex class `\s` (Python whitespace). -/
def isWsChar (c : Char) : Bool := c.isWhitespace

/-- Models `re.sub(r'\s+', ' ', text)`: every maximal whitespace run is
replaced by a single space.  The flag records whether the previous input
character was part of a whitespace run. -/
def collapseWsAux : Bool → List Char → List Char
  | _, [] => []
  | inRun, c :: cs =>
    if isWsChar c then
      if inRun then collapseWsAux true cs
      else ' ' :: collapseWsAux true cs
    else c :: collapseWsAux false cs

def collapseWs (l : List Char) : List Char := collapseWsAux false l

/-- Models Python `str.strip()`: drop leading and trailing whitespace. -/
def stripChars (l : List Char) : List Char :=
  ((l.dropWhile isWsChar).reverse.dropWhile isWsChar).reverse

/-- The whitespace-normalized text:
`re.sub(r'\s+', ' ', text).strip()` from `sent_tokenize`. -/
def normText (l : List Char) : List Char := stripChars (collapseWs l)

/-- True for the sentence-ending characters `.`, `!`, `?`. -/
def isSentEnd (c : Char) : Bool := c = '.' || c = '!' || c = '?'

/-- Whether the accumulated sentence ends in a sentence-ending character. -/
def sentEndLast (cur : List Char) : Bool :=
  match cur.getLast? with
  | some c => isSentEnd c
  | none => false

/-- Models `re.split(r'(?<=[.!?])\s+', text)` on whitespace-collapsed text
(after `collapseWs` every whitespace run is a single space, so the
separator `\s+` is one whitespace character preceded by `.`, `!` or `?`). -/
def splitSentGo (cur : List Char) : List Char → List (List Char)
  | [] => [cur]
  | c :: cs =>
    if isWsChar c && sentEndLast cur then cur :: splitSentGo [] cs
    else splitSentGo (cur ++ [c]) cs

def splitSentences (l : List Char) : List (List Char) := splitSentGo [] l

/-- Embeds `sent_tokenize` of knowledge_base.py: normalize whitespace, split at
sentence boundaries, drop empty strings. -/
def sent_tokenize (l : List Char) : List (List Char) :=
  (splitSentences (normText l)).filter (fun s => s ≠ [])

/-- Models Python `str.split()` (no argument): split on whitespace runs,
returning the list of (non-empty) words.  `cur` is the word currently being
accumulated. -/
def pySplitWordsAux (cur : List Char) : List Char → List (List Char)
  | [] => if cur = [] then [] else [cur]
  | c :: cs =>
    if isWsChar c then
      if cur = [] then pySplitWordsAux [] cs
      else cur :: pySplitWordsAux [] cs
    else pySplitWordsAux (cur ++ [c]) cs

def pySplitWords (l : List Char) : List (List Char) := pySplitWordsAux [] l

/-- Models Python `" ".join(words)`: the words separated by single
spaces. -/
def joinWords : List (List Char) → List Char
  | [] => []
  | [w] => w
  | w :: ws => w ++ ' ' :: joinWords ws

/-- Models the Python slice `l[-k:]` for `k ≥ 0`: the last `k` elements,
except that `l[-0:]` is the whole list. -/
def pyTailSlice (k : ℕ) (l : List α) : List α :=
  if k = 0 then l else l.drop (l.length - k)

/-- The words carried into the next chunk when a chunk is closed:
`current_chunk[-overlap:] if overlap < len(current_chunk) else current_chunk`. -/
def seedOf (ov : ℕ) (cur : List (List Char)) : List (List Char) :=
  if ov < cur.length then pyTailSlice ov cur else cur

/-- The loop state of `KnowledgeBase.chunk_text`: the finished chunks,
the running word list `current_chunk`, and the running word count
`current_length`. -/
structure ChunkAcc where
  chunks : List (List Char)
  current : List (List Char)
  currentLength : ℕ
deriving DecidableEq

/-- One iteration of the `for sent in sentences` loop in `chunk_text`:
if adding the sentence overflows `chunk_size` and the running chunk is
non-empty, close the chunk and keep the overlap seed; then append the
sentence's words. -/
def chunkStep (cs ov : ℕ) (acc : ChunkAcc) (sent : List Char) : ChunkAcc :=
  let words := pySplitWords sent
  let acc1 :=
    if cs < acc.currentLength + words.length ∧ acc.current ≠ [] then
      { chunks := acc.chunks ++ [joinWords acc.current]
        current := seedOf ov acc.current
        currentLength := (seedOf ov acc.current).length }
    else acc
  { acc1 with
      current := acc1.current ++ words
      currentLength := acc1.currentLength + words.length }

/-- Embeds `KnowledgeBase.chunk_text`: split the text into sentences, greedily
accumulate them into chunks of about `cs` words with `ov` overlap words,
and flush the trailing accumulation. -/
def chunk_text (cs ov : ℕ) (text : List Char) : List (List Char) :=
  let sentences := sent_tokenize text
  let acc := sentences.foldl (chunkStep cs ov) ⟨[], [], 0⟩
  if acc.current ≠ [] then acc.chunks ++ [joinWords acc.current] else acc.chunks

/-- A loaded page: the dict `{"page": i + 1, "content": ...}` built by
`load_pdf_data`. -/
structure Page where
  page : ℕ
  content : List Char
deriving DecidableEq

/-- A chunk record: the dict `{"page": ..., "chunk": ...}` built by
`create_chunks`. -/
structure ChunkRec where
  page : ℕ
  chunk : List Char
deriving DecidableEq

/-- The `KnowledgeBase` state relevant to chunking. -/
structure KnowledgeBase where
  chunk_size : ℕ
  chunk_overlap : ℕ
  documents : List Page
deriving DecidableEq

/-- The errors knowledge_base.py can raise: `FileNotFoundError` in
`load_pdf_data` and `ValueError("No documents loaded...")` in
`create_chunks` (the spec's `NotFound` and `InvalidState`). -/
inductive KBError where
  | notFound : KBError
  | invalidState : KBError
deriving DecidableEq

/-- Embeds `KnowledgeBase.create_chunks`: raise `ValueError` if no documents are
loaded, otherwise accumulate `{"page": p, "chunk": c}` records for every
page's chunks. -/
def create_chunks (kb : KnowledgeBase) : Except KBError (List ChunkRec) :=
  if kb.documents = [] then Except.error KBError.invalidState
  else Except.ok (kb.documents.foldl
    (fun acc doc => acc ++
      (chunk_text kb.chunk_size kb.chunk_overlap doc.content).map
        (fun c => ⟨doc.page, c⟩))
    [])

/-! ## retrieval_system.py — FAISS flat L2 index, build and search -/

/-- A document dict as held by the retrieval system and consumed by
augmentation / generation: a `page` number and the chunk text under the
key `chunk` (`none` models a dict lacking the key). -/
structure Doc where
  page : ℤ
  chunk : Option String
deriving DecidableEq

/-- A search result dict: `{'rank', 'document', 'similarity', 'distance'}`. -/
structure RetrievalResult where
  rank : ℕ
  document : Doc
  similarity : ℚ
  distance : ℚ
deriving DecidableEq

/-- Squared Euclidean distance, the metric of `faiss.IndexFlatL2`. -/
def sqDist (q v : List ℚ) : ℚ :=
  ((List.zip q v).map (fun p => (p.1 - p.2) * (p.1 - p.2))).sum

/-- Models `FLT_MAX`, the float32 maximum `(2 - 2⁻²³)·2¹²⁷ = 2¹²⁸ - 2¹⁰⁴`: the
distance FAISS reports for padding entries when fewer than `k` neighbors
exist. -/
def fltMax : ℚ := 340282346638528859811704183484516925440

/-- Ordering of `(index, distance)` pairs by ascending distance, ties
broken by insertion order (lower index first). -/
def knnLE (a b : ℕ × ℚ) : Prop := a.2 < b.2 ∨ (a.2 = b.2 ∧ a.1 ≤ b.1)

instance : DecidableRel knnLE := fun a b => by
  unfold knnLE; infer_instance

/-- Exact brute-force k-nearest-neighbor search of `faiss.IndexFlatL2`:
distances of the query to every stored vector, the `k` smallest in
ascending order, padded with `(FLT_MAX, -1)` when fewer than `k` vectors
are stored.  Returned entries are `(distance, label)`. -/
def knnSearch (xb : List (List ℚ)) (q : List ℚ) (k : ℕ) : List (ℚ × ℤ) :=
  let pairs := (xb.map (sqDist q)).enum
  let top := (List.insertionSort knnLE pairs).take k
  top.map (fun p => (p.2, (p.1 : ℤ))) ++
    List.replicate (k - top.length) (fltMax, -1)

/-- Python list indexing `l[i]`, including negative indices from the end;
`none` models an `IndexError`. -/
def pyGet (l : List α) (i : ℤ) : Option α :=
  if i < 0 then
    if (-i).toNat ≤ l.length then l.get? (l.length - (-i).toNat) else none
  else l.get? i.toNat

/-- The state of a built `RetrievalSystem`: the index dimension, the
vectors added to the FAISS index, and the stored documents list. -/
structure RetrievalState where
  dimension : ℕ
  xb : List (List ℚ)
  documents : List Doc
deriving DecidableEq

/-- Errors at index build: a ragged `np.array` conversion, the FAISS
dimension assertion in `add`, or unpacking the shape of an empty array. -/
inductive BuildError where
  | arrayConversion : BuildError
  | dimensionAssert : BuildError
  | emptyUnpack : BuildError
deriving DecidableEq

/-- Errors during `search`: the FAISS dimension / `k > 0` assertions, or
an `IndexError` from `self.documents[idx]`. -/
inductive SearchError where
  | dimensionAssert : SearchError
  | kAssert : SearchError
  | indexError : SearchError
deriving DecidableEq

/-- Embeds `RetrievalSystem.build_index`: store the documents, convert the
embeddings with `np.array(...).astype('float32')` (fails if ragged) and
add them to a fresh `IndexFlatL2` (fails if the array is empty — its
shape cannot be unpacked as `(n, d)` — or if the column count differs
from the index dimension).  No relation between the number of embeddings
and the number of documents is checked. -/
def build_index (dimension : ℕ) (embeddings : List (List ℚ))
    (documents : List Doc) : Except BuildError RetrievalState :=
  match embeddings with
  | [] => Except.error BuildError.emptyUnpack
  | r :: rest =>
    if rest.all (fun row => row.length = r.length) then
      if r.length = dimension then
        Except.ok ⟨dimension, r :: rest, documents⟩
      else Except.error BuildError.dimensionAssert
    else Except.error BuildError.arrayConversion

/-- One iteration of the result-formatting loop of
`RetrievalSystem.search`: given the 0-based loop position and the
`(distance, idx)` pair, build the dict with 1-based rank, the document
looked up by (possibly negative) index, `similarity = 1 / (1 + distance)`
and the distance. -/
def formatOne (docs : List Doc) (p : ℕ × ℚ × ℤ) :
    Except SearchError RetrievalResult :=
  match pyGet docs p.2.2 with
  | some doc => Except.ok ⟨p.1 + 1, doc, 1 / (1 + p.2.1), p.2.1⟩
  | none => Except.error SearchError.indexError

/-- The result-formatting loop of `RetrievalSystem.search`:
`for rank, (idx, distance) in enumerate(zip(indices[0], distances[0]), 1)`. -/
def searchFormat (docs : List Doc) (nbrs : List (ℚ × ℤ)) :
    Except SearchError (List RetrievalResult) :=
  nbrs.enum.mapM (formatOne docs)

/-- Embeds `RetrievalSystem.search`: FAISS asserts the query dimension and
`k > 0`, performs the k-NN search, and formats the results. -/
def search (st : RetrievalState) (query : List ℚ) (top_k : ℕ) :
    Except SearchError (List RetrievalResult) :=
  if query.length ≠ st.dimension then Except.error SearchError.dimensionAssert
  else if top_k = 0 then Except.error SearchError.kAssert
  else searchFormat st.documents (knnSearch st.xb query top_k)

/-! ## Number formatting shared by augmentation.py and generation.py -/

/-- Round-half-to-even, the rounding of Python float formatting. -/
def roundHalfEven (q : ℚ) : ℤ :=
  let f := ⌊q⌋
  let frac := q - f
  if frac < 1 / 2 then f
  else if 1 / 2 < frac then f + 1
  else if f % 2 = 0 then f else f + 1

/-- Models the Python format spec `.{d}%`: the value times 100, rounded
half-to-even to `d` decimal places, rendered with exactly `d` decimals and
a trailing percent sign. -/
def fmtPercent (d : ℕ) (q : ℚ) : String :=
  let n := roundHalfEven (q * 100 * ((10 ^ d : ℕ) : ℚ))
  let m := n.natAbs
  let intPart := toString (m / 10 ^ d)
  let fracDigits := toString (m % 10 ^ d)
  let fracPart :=
    String.mk (List.replicate (d - fracDigits.length) '0') ++ fracDigits
  (if n < 0 then "-" else "") ++ intPart ++
    (if d = 0 then "" else "." ++ fracPart) ++ "%"

/-! ## augmentation.py — prompt composition -/

/-- The `Augmentation` component has no instance state beyond logging. -/
structure Augmentation where
deriving DecidableEq

/-- One context block of `Augmentation.create_context`:
`f"[Page {doc['page']}]\nRelevance: {result['similarity']:.2%}\n{doc.get('chunk', '')}\n"`. -/
def mkContextBlock (r : RetrievalResult) : String :=
  "[Page " ++ toString r.document.page ++ "]\n" ++
    "Relevance: " ++ fmtPercent 2 r.similarity ++ "\n" ++
    (r.document.chunk.getD "") ++ "\n"

/-- The `context_parts` list built by the loop in `create_context`. -/
def contextParts (results : List RetrievalResult) : List String :=
  results.map mkContextBlock

/-- Embeds `Augmentation.create_context`: join the context blocks with
`"\n---\n"` and wrap them in the fixed question / context / instructions
template. -/
def create_context (a : Augmentation) (query : String)
    (retrieved_results : List RetrievalResult) : String :=
  let full_context := String.intercalate "\n---\n" (contextParts retrieved_results)
  "QUESTION: " ++ query ++ "\n\nRELEVANT CONTEXT FROM PDF:\n" ++
    full_context ++ "\n\nINSTRUCTIONS: Answer the question using the context above."

/-! ## generation.py — two-mode answer generation -/

/-- The `Generation` component state: the configured model name and the
`use_llm` mode flag set at construction time. -/
structure Generation where
  model_name : String
  use_llm : Bool
deriving DecidableEq

/-- The external completion capability `ollama.chat` reduced to its
boundary: a prompt either yields a completion text or raises. -/
def LlmCap : Type := String → Except String String

/-- Python `c * n` for a character: `"=" * 70` and friends. -/
def repeatChar (c : Char) (n : ℕ) : String := String.mk (List.replicate n c)

/-- Models `text[:limit] + "..." if len(text) > limit else text`. -/
def previewOf (limit : ℕ) (s : String) : String :=
  if limit < s.length then s.take limit ++ "..." else s

/-- One entry of the template answer:
`f"[{i}] Page {doc['page']} (Similarity: {result['similarity']:.1%})\n{preview}\n\n"`,
with the 300-character preview.  `none` models the `KeyError` when the
document dict lacks `'chunk'`. -/
def templateEntry (i : ℕ) (r : RetrievalResult) : Option String :=
  r.document.chunk.map (fun ch =>
    "[" ++ toString i ++ "] Page " ++ toString r.document.page ++
      " (Similarity: " ++ fmtPercent 1 r.similarity ++ ")\n" ++
      previewOf 300 ch ++ "\n\n")

/-- Embeds `Generation._generate_template`: extract the first line of the
enriched context as the question and list every result's page, similarity
and preview between fixed banner lines. -/
def generateTemplate (enriched_context : String)
    (retrieved_results : List RetrievalResult) : Option String :=
  let lines := enriched_context.splitOn "\n"
  let question_line := match lines with
    | [] => "Question not found"
    | l :: _ => l
  (retrieved_results.enum.mapM (fun p => templateEntry (p.1 + 1) p.2)).map
    (fun entries =>
      repeatChar '=' 70 ++
        "\n⚠️  LLM Mode Disabled - Showing Retrieved Context" ++
        ("\n" ++ repeatChar '=' 70) ++
        ("\n\n" ++ question_line ++ "\n") ++
        ("\nFound " ++ toString retrieved_results.length ++
          " relevant passages:\n\n") ++
        String.join entries ++
        repeatChar '=' 70 ++
        "\n💡 TIP: Enable LLM mode for AI-generated answers" ++
        ("\n" ++ repeatChar '=' 70))

/-- One source citation of the LLM answer:
`f"\n[{i}] Page {doc['page']} (Similarity: {result['similarity']:.1%})\n"`
plus the 150-character preview line; `none` models the `KeyError` on a
missing `'chunk'` key. -/
def citationEntry (i : ℕ) (r : RetrievalResult) : Option String :=
  r.document.chunk.map (fun ch =>
    "\n[" ++ toString i ++ "] Page " ++ toString r.document.page ++
      " (Similarity: " ++ fmtPercent 1 r.similarity ++ ")\n" ++
      "    Preview: " ++ previewOf 150 ch ++ "\n")

/-- The body of the `try` block of `Generation._generate_with_llm`: call
the completion capability and append the source-citation block.  `none`
models any raised exception inside the block. -/
def llmTryBody (llm : LlmCap) (enriched_context : String)
    (retrieved_results : List RetrievalResult) : Option String := do
  let answer ← (llm enriched_context).toOption
  let cites ← retrieved_results.enum.mapM (fun p => citationEntry (p.1 + 1) p.2)
  pure (answer ++ "\n\n" ++ repeatChar '=' 70 ++ "\n📚 SOURCES:\n" ++
    repeatChar '=' 70 ++ "\n" ++ String.join cites)

/-- Embeds `Generation._generate_with_llm`: run the `try` block; on any
exception fall back to `_generate_template` for this invocation. -/
def generateWithLLM (llm : LlmCap) (enriched_context : String)
    (retrieved_results : List RetrievalResult) : Option String :=
  match llmTryBody llm enriched_context retrieved_results with
  | some answer => some answer
  | none => generateTemplate enriched_context retrieved_results

/-- Embeds `Generation.generate`: dispatch on `self.use_llm`.  The method reads
but never assigns instance state, so the post-state is returned alongside
the answer to make the frame explicit. -/
def generate (g : Generation) (llm : LlmCap) (enriched_context : String)
    (retrieved_results : List RetrievalResult) :
    Option String × Generation :=
  if g.use_llm then
    (generateWithLLM llm enriched_context retrieved_results, g)
  else
    (generateTemplate enriched_context retrieved_results, g)

/-! ## Predicates and helpers used to state the claims -/

/-- All entries are genuine words: non-empty and free of whitespace. -/
def WordsOK (ws : List (List Char)) : Prop :=
  ∀ w ∈ ws, w ≠ [] ∧ ∀ c ∈ w, isWsChar c = false

/-- The overlap relation of the spec between a chunk `c₁` and the word
list `w₂` of its successor: the trailing `min ov |words c₁|` words of
`c₁` are the leading words of `w₂`. -/
def overlapRel (ov : ℕ) (c₁ : List Char) (w₂ : List (List Char)) : Prop :=
  w₂.take (min ov (pySplitWords c₁).length) =
    (pySplitWords c₁).drop
      ((pySplitWords c₁).length - min ov (pySplitWords c₁).length)

/-- Spec §8 chunk-overlap invariant for two adjacent chunks. -/
def adjacentOverlap (ov : ℕ) (c₁ c₂ : List Char) : Prop :=
  overlapRel ov c₁ (pySplitWords c₂)

/-- Leading-seed removal for every chunk after the first, where the seed
of a chunk is the trailing `min ov |words prev|` words of its
predecessor (the spec's description of the carried overlap). -/
def dropSeedsGo (ov : ℕ) : List Char → List (List Char) → List (List Char)
  | _, [] => []
  | prev, c :: rest =>
    (pySplitWords c).drop (min ov (pySplitWords prev).length) ++
      dropSeedsGo ov c rest

/-- The word stream of a chunk list with each chunk's leading overlap
seed removed (spec §8 chunk coverage). -/
def seedStripped (ov : ℕ) : List (List Char) → List (List Char)
  | [] => []
  | c :: rest => pySplitWords c ++ dropSeedsGo ov c rest

/-- The number of results a search call returns, if it returns. -/
def resultCount (e : Except SearchError (List RetrievalResult)) : Option ℕ :=
  match e with
  | Except.ok l => some l.length
  | Except.error _ => none

/-- Replace an absent `'chunk'` key by an explicitly empty chunk text. -/
def fillChunk (r : RetrievalResult) : RetrievalResult :=
  { r with document := { r.document with chunk := some (r.document.chunk.getD "") } }

/-! ## General lemmas -/

theorem foldl_append_eq_flatMap {α β : Type} (f : α → List β) :
    ∀ (l : List α) (init : List β),
      l.foldl (fun acc d => acc ++ f d) init = init ++ l.flatMap f := by
  intro l
  induction l with
  | nil => intro init; simp
  | cons d rest ih => intro init; simp [List.foldl_cons, ih]

theorem mapM_option_eq_some {α β : Type} (f : α → Option β) :
    ∀ l : List α, (∀ a ∈ l, ∃ b, f a = some b) →
      ∃ res, l.mapM f = some res := by
  intro l
  induction l with
  | nil => intro _; exact ⟨[], rfl⟩
  | cons a rest ih =>
    intro h
    obtain ⟨b, hb⟩ := h a (List.mem_cons_self a rest)
    obtain ⟨res, hres⟩ := ih (fun x hx => h x (List.mem_cons_of_mem a hx))
    refine ⟨b :: res, ?_⟩
    rw [List.mapM_cons, hb, hres]
    rfl

/-! ## Claims C9 and C10 — augmentation -/

/-- C9: Prompt composition is deterministic: two calls to
`create_context` with identical query and identical result lists return
byte-identical prompt strings (the composition reads no instance state,
so the instances may even differ). -/
theorem claim_C9 : ∀ (a₁ a₂ : Augmentation) (query : String)
    (results : List RetrievalResult),
    create_context a₁ query results = create_context a₂ query results :=
  fun _ _ _ _ => rfl

theorem mkContextBlock_fillChunk (r : RetrievalResult) :
    mkContextBlock (fillChunk r) = mkContextBlock r := by
  unfold mkContextBlock fillChunk
  cases r.document.chunk <;> rfl

/-- C10: For every result list whose entries carry a document with a
page and a similarity, `create_context` is total even when a document
lacks the `'chunk'` key (in the model: `chunk = none`): it returns the
same prompt as if the chunk text were present but empty, and one context
block is emitted per result. -/
theorem claim_C10 : ∀ (a : Augmentation) (query : String)
    (results : List RetrievalResult),
    create_context a query (results.map fillChunk) =
        create_context a query results ∧
      (contextParts results).length = results.length := by
  intro a query results
  constructor
  · unfold create_context contextParts
    rw [List.map_map]
    have h : results.map (mkContextBlock ∘ fillChunk) =
        results.map mkContextBlock :=
      List.map_congr_left (fun r _ => mkContextBlock_fillChunk r)
    rw [h]
  · exact List.length_map results mkContextBlock

/-! ## Claims C7 and C6 — generation -/

theorem generate_state_eq (g : Generation) (llm : LlmCap) (ctx : String)
    (rs : List RetrievalResult) : (generate g llm ctx rs).2 = g := by
  unfold generate
  split <;> rfl

/-- C7: `generate` never mutates the generator's mode state: the
post-state `use_llm` equals the pre-state `use_llm` for every call
(success or failure of the completion capability), so a generator in LLM
mode attempts the LLM again on the next call — the next `generate` on
the post-state takes the `_generate_with_llm` path. -/
theorem claim_C7 : ∀ (g : Generation) (llm : LlmCap) (ctx : String)
    (rs : List RetrievalResult) (llm₂ : LlmCap) (ctx₂ : String)
    (rs₂ : List RetrievalResult),
    (generate g llm ctx rs).2.use_llm = g.use_llm ∧
      (g.use_llm = true →
        (generate (generate g llm ctx rs).2 llm₂ ctx₂ rs₂).1 =
          generateWithLLM llm₂ ctx₂ rs₂) := by
  intro g llm ctx rs llm₂ ctx₂ rs₂
  rw [generate_state_eq]
  refine ⟨rfl, fun h => ?_⟩
  unfold generate
  rw [if_pos h]

/-- Witness for C7 at a concrete generator whose first call fails:
the mode flag is unchanged and the second call goes to the LLM path. -/
theorem claim_C7_witness :
    (Generation.mk "llama3.2:3b" true).use_llm = true ∧
      (generate (Generation.mk "llama3.2:3b" true)
          (fun _ => Except.error "connection refused") "ctx"
          []).2.use_llm = (Generation.mk "llama3.2:3b" true).use_llm ∧
      (generate
          (generate (Generation.mk "llama3.2:3b" true)
            (fun _ => Except.error "connection refused") "ctx" []).2
          (fun _ => Except.ok "fine") "ctx2" []).1 =
        generateWithLLM (fun _ => Except.ok "fine") "ctx2" [] := by
  refine ⟨rfl, ?_, ?_⟩
  · exact (claim_C7 (Generation.mk "llama3.2:3b" true)
      (fun _ => Except.error "connection refused") "ctx" []
      (fun _ => Except.ok "fine") "ctx2" []).1
  · exact (claim_C7 (Generation.mk "llama3.2:3b" true)
      (fun _ => Except.error "connection refused") "ctx" []
      (fun _ => Except.ok "fine") "ctx2" []).2 rfl

theorem enum_snd_mem {α : Type} {l : List α} {p : ℕ × α}
    (h : p ∈ l.enum) : p.2 ∈ l :=
  List.getElem?_mem (List.mem_enum_iff_getElem?.mp h)

theorem templateEntry_some (i : ℕ) (r : RetrievalResult) (ch : String)
    (h : r.document.chunk = some ch) : ∃ b, templateEntry i r = some b := by
  unfold templateEntry
  rw [h]
  exact ⟨_, rfl⟩

/-- C6: For every prompt and every non-empty result list (whose entries
carry a chunk text, as pipeline results do), if the completion
capability raises on every call then `generate` still returns an answer
(it does not raise), namely the template-mode formatting of the
results. -/
theorem claim_C6 : ∀ (g : Generation) (llm : LlmCap) (ctx : String)
    (rs : List RetrievalResult),
    (∀ p, (llm p).toOption = none) → rs ≠ [] →
    (∀ r ∈ rs, ∃ ch, r.document.chunk = some ch) →
    (generate g llm ctx rs).1 = generateTemplate ctx rs ∧
      ∃ answer, (generate g llm ctx rs).1 = some answer := by
  intro g llm ctx rs hfail _ hchunk
  have hgen : (generate g llm ctx rs).1 = generateTemplate ctx rs := by
    unfold generate
    split
    · show generateWithLLM llm ctx rs = _
      unfold generateWithLLM
      have hbody : llmTryBody llm ctx rs = none := by
        unfold llmTryBody
        rw [hfail ctx]
        rfl
      rw [hbody]
    · rfl
  refine ⟨hgen, ?_⟩
  rw [hgen]
  unfold generateTemplate
  obtain ⟨entries, hentries⟩ :=
    mapM_option_eq_some (fun p => templateEntry (p.1 + 1) p.2) rs.enum
      (fun p hp => by
        obtain ⟨ch, hch⟩ := hchunk p.2 (enum_snd_mem hp)
        exact templateEntry_some (p.1 + 1) p.2 ch hch)
  rw [hentries]
  exact ⟨_, rfl⟩

/-- Witness for C6: a concrete LLM-mode generator with an
always-raising completion capability returns the template answer. -/
theorem claim_C6_witness :
    (∀ p, ((fun _ => Except.error "boom" : LlmCap) p).toOption = none) ∧
      ([⟨1, ⟨3, some "hello"⟩, 1/2, 1⟩] : List RetrievalResult) ≠ [] ∧
      (generate (Generation.mk "llama3.2:3b" true)
          (fun _ => Except.error "boom") "QUESTION: hi"
          [⟨1, ⟨3, some "hello"⟩, 1/2, 1⟩]).1 =
        generateTemplate "QUESTION: hi"
          [⟨1, ⟨3, some "hello"⟩, 1/2, 1⟩] ∧
      ∃ answer,
        (generate (Generation.mk "llama3.2:3b" true)
            (fun _ => Except.error "boom") "QUESTION: hi"
            [⟨1, ⟨3, some "hello"⟩, 1/2, 1⟩]).1 = some answer := by
  have hc : ∀ r ∈ ([⟨1, ⟨3, some "hello"⟩, 1/2, 1⟩] : List RetrievalResult),
      ∃ ch, r.document.chunk = some ch := by
    intro r hr
    rw [List.mem_singleton] at hr
    subst hr
    exact ⟨"hello", rfl⟩
  refine ⟨fun _ => rfl, by decide, ?_, ?_⟩
  · exact (claim_C6 (Generation.mk "llama3.2:3b" true)
      (fun _ => Except.error "boom") "QUESTION: hi"
      [⟨1, ⟨3, some "hello"⟩, 1/2, 1⟩] (fun _ => rfl) (by decide) hc).1
  · exact (claim_C6 (Generation.mk "llama3.2:3b" true)
      (fun _ => Except.error "boom") "QUESTION: hi"
      [⟨1, ⟨3, some "hello"⟩, 1/2, 1⟩] (fun _ => rfl) (by decide) hc).2

/-! ## Claim C8 — chunking prerequisite state -/

/-- C8: Invoking chunk creation before any documents are loaded fails
with the `InvalidState` error (`ValueError`); when documents are loaded
it does not raise and returns the page-tagged chunk list. -/
theorem claim_C8 : ∀ kb : KnowledgeBase,
    create_chunks kb =
      if kb.documents = [] then Except.error KBError.invalidState
      else Except.ok (kb.documents.flatMap (fun doc =>
        (chunk_text kb.chunk_size kb.chunk_overlap doc.content).map
          (fun c => ⟨doc.page, c⟩))) := by
  intro kb
  unfold create_chunks
  split
  · rfl
  · rw [foldl_append_eq_flatMap]
    rfl

/-! ## Lemmas about Python word splitting -/

theorem pySplitWordsAux_nil (cur : List Char) :
    pySplitWordsAux cur [] = if cur = [] then [] else [cur] := rfl

theorem pySplitWordsAux_cons (cur : List Char) (c : Char) (cs : List Char) :
    pySplitWordsAux cur (c :: cs) =
      if isWsChar c = true then
        (if cur = [] then pySplitWordsAux [] cs
          else cur :: pySplitWordsAux [] cs)
      else pySplitWordsAux (cur ++ [c]) cs := rfl

theorem not_ws_of_eq_false {c : Char} (hc : isWsChar c = false) :
    ¬ isWsChar c = true := by
  rw [hc]
  exact fun h => nomatch h

theorem pySplitWordsAux_words_ok :
    ∀ (l cur : List Char), (∀ c ∈ cur, isWsChar c = false) →
      ∀ w ∈ pySplitWordsAux cur l, w ≠ [] ∧ ∀ c ∈ w, isWsChar c = false := by
  intro l
  induction l with
  | nil =>
    intro cur hcur w hw
    rw [pySplitWordsAux_nil] at hw
    split at hw
    · cases hw
    · rw [List.mem_singleton] at hw
      subst hw
      exact ⟨by assumption, hcur⟩
  | cons c cs ih =>
    intro cur hcur w hw
    rw [pySplitWordsAux_cons] at hw
    split at hw
    · split at hw
      · exact ih [] (by intro c hc; cases hc) w hw
      · rcases List.mem_cons.mp hw with hw' | hw'
        · subst hw'
          exact ⟨by assumption, hcur⟩
        · exact ih [] (by intro c hc; cases hc) w hw'
    · refine ih (cur ++ [c]) ?_ w hw
      intro c' hc'
      rcases List.mem_append.mp hc' with h | h
      · exact hcur c' h
      · rw [List.mem_singleton] at h
        subst h
        rename_i hnot
        exact Bool.not_eq_true _ ▸ hnot

theorem pySplitWords_words_ok (l : List Char) : WordsOK (pySplitWords l) :=
  fun w hw => pySplitWordsAux_words_ok l [] (by intro c hc; cases hc) w hw

theorem pySplitWordsAux_append_word :
    ∀ (w cur rest : List Char), (∀ c ∈ w, isWsChar c = false) →
      pySplitWordsAux cur (w ++ rest) = pySplitWordsAux (cur ++ w) rest := by
  intro w
  induction w with
  | nil => intro cur rest _; rw [List.nil_append, List.append_nil]
  | cons c w' ih =>
    intro cur rest hok
    have hc : isWsChar c = false := hok c (List.mem_cons_self c w')
    rw [List.cons_append, pySplitWordsAux_cons, if_neg (not_ws_of_eq_false hc)]
    rw [ih (cur ++ [c]) rest (fun c' hc' => hok c' (List.mem_cons_of_mem c hc'))]
    rw [List.append_assoc, List.singleton_append]

theorem pySplitWords_join : ∀ ws : List (List Char), WordsOK ws →
    pySplitWords (joinWords ws) = ws := by
  intro ws
  induction ws with
  | nil => intro _; rfl
  | cons w ws' ih =>
    intro hok
    have hw := hok w (List.mem_cons_self w ws')
    cases ws' with
    | nil =>
      show pySplitWordsAux [] (joinWords [w]) = [w]
      have h1 : pySplitWordsAux [] (w ++ []) = pySplitWordsAux ([] ++ w) [] :=
        pySplitWordsAux_append_word w [] [] hw.2
      rw [List.append_nil, List.nil_append] at h1
      show pySplitWordsAux [] w = [w]
      rw [h1, pySplitWordsAux_nil, if_neg hw.1]
    | cons w₂ ws'' =>
      show pySplitWordsAux [] (w ++ ' ' :: joinWords (w₂ :: ws'')) = _
      rw [pySplitWordsAux_append_word w [] _ hw.2, List.nil_append]
      rw [pySplitWordsAux_cons, if_pos (show isWsChar ' ' = true by decide),
        if_neg hw.1]
      exact congrArg (w :: ·)
        (ih (fun x hx => hok x (List.mem_cons_of_mem w hx)))

theorem pySplitWordsAux_ws_append (c : Char) (hc : isWsChar c = true) :
    ∀ (a : List Char) (cur b : List Char),
      pySplitWordsAux cur (a ++ c :: b) =
        pySplitWordsAux cur a ++ pySplitWords b := by
  intro a
  induction a with
  | nil =>
    intro cur b
    rw [List.nil_append, pySplitWordsAux_cons, if_pos hc, pySplitWordsAux_nil]
    by_cases hcur : cur = []
    · rw [if_pos hcur, if_pos hcur, List.nil_append]
      rfl
    · rw [if_neg hcur, if_neg hcur, List.singleton_append]
      rfl
  | cons x a' ih =>
    intro cur b
    rw [List.cons_append, pySplitWordsAux_cons, pySplitWordsAux_cons]
    by_cases hx : isWsChar x = true
    · rw [if_pos hx, if_pos hx]
      by_cases hcur : cur = []
      · rw [if_pos hcur, if_pos hcur]
        exact ih [] b
      · rw [if_neg hcur, if_neg hcur, ih [] b, List.cons_append]
    · rw [if_neg hx, if_neg hx]
      exact ih (cur ++ [x]) b

/-! ## Lemmas about sentence splitting -/

theorem splitSentGo_nil (cur : List Char) : splitSentGo cur [] = [cur] := rfl

theorem splitSentGo_cons (cur : List Char) (c : Char) (cs : List Char) :
    splitSentGo cur (c :: cs) =
      if (isWsChar c && sentEndLast cur) = true then
        cur :: splitSentGo [] cs
      else splitSentGo (cur ++ [c]) cs := rfl

theorem splitSentGo_flatMap : ∀ (l cur : List Char),
    (splitSentGo cur l).flatMap pySplitWords = pySplitWords (cur ++ l) := by
  intro l
  induction l with
  | nil =>
    intro cur
    rw [splitSentGo_nil, List.append_nil]
    show pySplitWords cur ++ [].flatMap pySplitWords = pySplitWords cur
    rw [List.flatMap_nil, List.append_nil]
  | cons c cs ih =>
    intro cur
    rw [splitSentGo_cons]
    by_cases hcond : (isWsChar c && sentEndLast cur) = true
    · rw [if_pos hcond, List.flatMap_cons, ih []]
      simp only [Bool.and_eq_true] at hcond
      have hcw : isWsChar c = true := hcond.1
      show pySplitWords cur ++ pySplitWords cs =
        pySplitWordsAux [] (cur ++ c :: cs)
      rw [pySplitWordsAux_ws_append c hcw cur [] cs]
      rfl
    · rw [if_neg hcond, ih (cur ++ [c]), List.append_assoc,
        List.singleton_append]

theorem flatMap_filter_ne_nil (l : List (List Char)) :
    (l.filter (fun s => s ≠ [])).flatMap pySplitWords =
      l.flatMap pySplitWords := by
  induction l with
  | nil => rfl
  | cons x l' ih =>
    by_cases hx : x = []
    · subst hx
      rw [List.filter_cons_of_neg (by simp), List.flatMap_cons]
      rw [ih]
      rfl
    · rw [List.filter_cons_of_pos (by simpa), List.flatMap_cons,
        List.flatMap_cons, ih]

/-- The word stream of the tokenized sentences is the word stream of the
whitespace-normalized text. -/
theorem sent_tokenize_flatMap (t : List Char) :
    (sent_tokenize t).flatMap pySplitWords = pySplitWords (normText t) := by
  unfold sent_tokenize splitSentences
  rw [flatMap_filter_ne_nil, splitSentGo_flatMap (normText t) []]
  rfl

/-! ## Lemmas about the chunking loop -/

/-- A produced chunk is the space-join of a list of genuine words. -/
def ChunkOK (c : List Char) : Prop :=
  ∃ ws, WordsOK ws ∧ c = joinWords ws

theorem wordsOK_nil : WordsOK [] := fun _ hw => nomatch hw

theorem wordsOK_append {a b : List (List Char)} (ha : WordsOK a)
    (hb : WordsOK b) : WordsOK (a ++ b) := by
  intro w hw
  rcases List.mem_append.mp hw with h | h
  · exact ha w h
  · exact hb w h

theorem overlapRel_min_le {ov : ℕ} {c : List Char} {w : List (List Char)}
    (h : overlapRel ov c w) :
    min ov (pySplitWords c).length ≤ w.length := by
  unfold overlapRel at h
  have hlen := congrArg List.length h
  rw [List.length_take, List.length_drop] at hlen
  omega

theorem overlapRel_append {ov : ℕ} {c : List Char} {w u : List (List Char)}
    (h : overlapRel ov c w) : overlapRel ov c (w ++ u) := by
  unfold overlapRel at h ⊢
  rw [List.take_append_of_le_length (overlapRel_min_le h)]
  exact h

theorem seedOf_words_ok {cur : List (List Char)} (ov : ℕ)
    (h : WordsOK cur) : WordsOK (seedOf ov cur) := by
  unfold seedOf pyTailSlice
  split
  · split
    · exact h
    · exact fun w hw => h w (List.mem_of_mem_drop hw)
  · exact h

theorem seedOf_ne_nil {cur : List (List Char)} (ov : ℕ)
    (h : cur ≠ []) : seedOf ov cur ≠ [] := by
  unfold seedOf pyTailSlice
  split
  · split
    · exact h
    · refine List.ne_nil_of_length_pos ?_
      rw [List.length_drop]
      omega
  · exact h

theorem seedOf_length {cur : List (List Char)} {ov : ℕ} (h1 : 1 ≤ ov) :
    (seedOf ov cur).length = min ov cur.length := by
  unfold seedOf pyTailSlice
  split
  · rw [if_neg (by omega), List.length_drop]
    omega
  · omega

/-- Closing a chunk establishes the overlap relation between the closed
chunk and the seed carried into the next chunk. -/
theorem overlapRel_seed {cur : List (List Char)} (ov : ℕ)
    (hok : WordsOK cur) (hne : cur ≠ []) :
    overlapRel ov (joinWords cur) (seedOf ov cur) := by
  unfold overlapRel
  rw [pySplitWords_join cur hok]
  unfold seedOf pyTailSlice
  by_cases hlt : ov < cur.length
  · rw [if_pos hlt]
    by_cases h0 : ov = 0
    · subst h0
      rw [if_pos rfl]
      rw [Nat.min_eq_left (by omega), Nat.sub_zero, List.drop_length,
        List.take_zero]
    · rw [if_neg h0]
      have hm : min ov cur.length = ov := Nat.min_eq_left (by omega)
      rw [hm]
      rw [List.take_of_length_le (by rw [List.length_drop]; omega)]
  · rw [if_neg hlt]
    have hm : min ov cur.length = cur.length := Nat.min_eq_right (by omega)
    rw [hm, Nat.sub_self, List.drop_zero, List.take_length]

theorem chunkStep_pos (cs ov : ℕ) (acc : ChunkAcc) (s : List Char)
    (h : cs < acc.currentLength + (pySplitWords s).length ∧
      acc.current ≠ []) :
    chunkStep cs ov acc s =
      ⟨acc.chunks ++ [joinWords acc.current],
        seedOf ov acc.current ++ pySplitWords s,
        (seedOf ov acc.current).length + (pySplitWords s).length⟩ := by
  unfold chunkStep
  dsimp only
  rw [if_pos h]

theorem chunkStep_neg (cs ov : ℕ) (acc : ChunkAcc) (s : List Char)
    (h : ¬ (cs < acc.currentLength + (pySplitWords s).length ∧
      acc.current ≠ [])) :
    chunkStep cs ov acc s =
      ⟨acc.chunks, acc.current ++ pySplitWords s,
        acc.currentLength + (pySplitWords s).length⟩ := by
  unfold chunkStep
  dsimp only
  rw [if_neg h]

/-- The loop invariant for the chunk-overlap claim: accumulated words are
genuine, every closed chunk is a word join, adjacent closed chunks
satisfy the overlap relation, and the running chunk extends the seed of
the last closed chunk. -/
def Inv3 (ov : ℕ) (acc : ChunkAcc) : Prop :=
  WordsOK acc.current ∧
  (∀ c ∈ acc.chunks, ChunkOK c) ∧
  List.Chain' (adjacentOverlap ov) acc.chunks ∧
  (acc.chunks ≠ [] → acc.current ≠ [] ∧
    overlapRel ov (acc.chunks.getLastD []) acc.current)

theorem chain'_append_chunk {ov : ℕ} {l : List (List Char)}
    {cur : List (List Char)} (hch : List.Chain' (adjacentOverlap ov) l)
    (hok : WordsOK cur)
    (hlast : l ≠ [] → overlapRel ov (l.getLastD []) cur) :
    List.Chain' (adjacentOverlap ov) (l ++ [joinWords cur]) := by
  rw [List.chain'_append]
  refine ⟨hch, List.chain'_singleton _, ?_⟩
  intro x hx y hy
  rw [List.head?_cons, Option.mem_def] at hy
  have hy' : y = joinWords cur := Option.some.inj hy.symm
  subst hy'
  rw [Option.mem_def] at hx
  have hne : l ≠ [] := by
    intro hnil
    subst hnil
    exact nomatch hx
  have hxl : l.getLastD [] = x := by
    rw [List.getLastD_eq_getLast?, hx]
    rfl
  unfold adjacentOverlap
  rw [pySplitWords_join cur hok, ← hxl]
  exact hlast hne

theorem inv3_step (cs ov : ℕ) (acc : ChunkAcc) (s : List Char)
    (h : Inv3 ov acc) : Inv3 ov (chunkStep cs ov acc s) := by
  obtain ⟨hcur, hchunks, hchain, hlast⟩ := h
  have hwok : WordsOK (pySplitWords s) := pySplitWords_words_ok s
  by_cases hcond : cs < acc.currentLength + (pySplitWords s).length ∧
      acc.current ≠ []
  · rw [chunkStep_pos cs ov acc s hcond]
    refine ⟨wordsOK_append (seedOf_words_ok ov hcur) hwok, ?_, ?_, ?_⟩
    · intro c hc
      rcases List.mem_append.mp hc with h | h
      · exact hchunks c h
      · rw [List.mem_singleton] at h
        subst h
        exact ⟨acc.current, hcur, rfl⟩
    · exact chain'_append_chunk hchain hcur (fun hne => (hlast hne).2)
    · intro _
      refine ⟨List.append_ne_nil_of_left_ne_nil
        (seedOf_ne_nil ov hcond.2) _, ?_⟩
      rw [List.getLastD_eq_getLast?, List.getLast?_concat]
      exact overlapRel_append (overlapRel_seed ov hcur hcond.2)
  · rw [chunkStep_neg cs ov acc s hcond]
    refine ⟨wordsOK_append hcur hwok, hchunks, hchain, ?_⟩
    intro hne
    refine ⟨List.append_ne_nil_of_left_ne_nil ((hlast hne).1) _,
      overlapRel_append (hlast hne).2⟩

theorem inv3_foldl (cs ov : ℕ) : ∀ (sents : List (List Char))
    (acc : ChunkAcc), Inv3 ov acc →
    Inv3 ov (List.foldl (chunkStep cs ov) acc sents) := by
  intro sents
  induction sents with
  | nil => intro acc h; exact h
  | cons s rest ih =>
    intro acc h
    rw [List.foldl_cons]
    exact ih _ (inv3_step cs ov acc s h)

/-! ## Claim C3 — chunk overlap invariant -/

/-- C3: For every input text, chunk size and overlap, any two
consecutive chunks produced by `chunk_text` share the spec's literal
word-overlap region: the trailing `min(overlap, |words c[i]|)` words of
`c[i]` are the leading words of `c[i+1]`. -/
theorem claim_C3 : ∀ (cs ov : ℕ) (text : List Char),
    List.Chain' (adjacentOverlap ov) (chunk_text cs ov text) := by
  intro cs ov text
  unfold chunk_text
  have hinv : Inv3 ov (List.foldl (chunkStep cs ov) ⟨[], [], 0⟩
      (sent_tokenize text)) := by
    refine inv3_foldl cs ov (sent_tokenize text) ⟨[], [], 0⟩ ?_
    refine ⟨wordsOK_nil, ?_, List.chain'_nil, ?_⟩
    · intro c hc
      cases hc
    · intro hne
      exact absurd rfl hne
  obtain ⟨hcur, -, hchain, hlast⟩ := hinv
  dsimp only
  split
  · exact chain'_append_chunk hchain hcur (fun hne => (hlast hne).2)
  · exact hchain

/-! ## Claim C5 — chunk coverage -/

theorem dropSeedsGo_concat (ov : ℕ) : ∀ (l : List (List Char))
    (prev c : List Char),
    dropSeedsGo ov prev (l ++ [c]) =
      dropSeedsGo ov prev l ++
        (pySplitWords c).drop
          (min ov (pySplitWords (l.getLastD prev)).length) := by
  intro l
  induction l with
  | nil =>
    intro prev c
    show dropSeedsGo ov prev [c] = [] ++ _
    rw [List.nil_append]
    show (pySplitWords c).drop _ ++ dropSeedsGo ov c [] = _
    show (pySplitWords c).drop _ ++ [] = _
    rw [List.append_nil]
    rfl
  | cons x l' ih =>
    intro prev c
    rw [List.cons_append]
    show (pySplitWords x).drop _ ++ dropSeedsGo ov x (l' ++ [c]) = _
    rw [ih x c, List.getLastD_cons]
    show _ = ((pySplitWords x).drop _ ++ dropSeedsGo ov x l') ++ _
    rw [List.append_assoc]

theorem seedStripped_concat (ov : ℕ) (l : List (List Char))
    (c : List Char) (hne : l ≠ []) :
    seedStripped ov (l ++ [c]) =
      seedStripped ov l ++
        (pySplitWords c).drop
          (min ov (pySplitWords (l.getLastD [])).length) := by
  cases l with
  | nil => exact absurd rfl hne
  | cons x l' =>
    rw [List.cons_append]
    show pySplitWords x ++ dropSeedsGo ov x (l' ++ [c]) = _
    rw [dropSeedsGo_concat ov l' x c, List.getLastD_cons]
    show _ = (pySplitWords x ++ dropSeedsGo ov x l') ++ _
    rw [List.append_assoc]

/-- The loop invariant for the chunk-coverage claim: the words covered so
far — the seed-stripped closed chunks followed by the part of the
running chunk after the seed of the last closed chunk — are exactly the
words of the sentences consumed so far. -/
def Inv5 (ov : ℕ) (acc : ChunkAcc) (T : List (List Char)) : Prop :=
  WordsOK acc.current ∧
  (acc.chunks = [] → acc.current = T) ∧
  (acc.chunks ≠ [] →
    acc.current ≠ [] ∧
    min ov (pySplitWords (acc.chunks.getLastD [])).length ≤
      acc.current.length ∧
    seedStripped ov acc.chunks ++
      acc.current.drop
        (min ov (pySplitWords (acc.chunks.getLastD [])).length) = T)

/-- Flushing the running chunk after the closed ones covers exactly the
words consumed so far. -/
theorem inv5_flush {ov : ℕ} {acc : ChunkAcc} {T : List (List Char)}
    (hinv : Inv5 ov acc T) (hne : acc.current ≠ []) :
    seedStripped ov (acc.chunks ++ [joinWords acc.current]) = T := by
  obtain ⟨hcur, hempty, hlast⟩ := hinv
  by_cases hc : acc.chunks = []
  · rw [hc, List.nil_append]
    show pySplitWords (joinWords acc.current) ++
      dropSeedsGo ov (joinWords acc.current) [] = T
    show pySplitWords (joinWords acc.current) ++ [] = T
    rw [List.append_nil, pySplitWords_join _ hcur]
    exact hempty hc
  · rw [seedStripped_concat ov acc.chunks _ hc,
      pySplitWords_join _ hcur]
    exact (hlast hc).2.2

theorem inv5_step (cs : ℕ) {ov : ℕ} (h1 : 1 ≤ ov) (acc : ChunkAcc)
    (s : List Char) {T : List (List Char)} (h : Inv5 ov acc T) :
    Inv5 ov (chunkStep cs ov acc s) (T ++ pySplitWords s) := by
  have hwok : WordsOK (pySplitWords s) := pySplitWords_words_ok s
  obtain ⟨hcur, hempty, hlast⟩ := h
  by_cases hcond : cs < acc.currentLength + (pySplitWords s).length ∧
      acc.current ≠ []
  · rw [chunkStep_pos cs ov acc s hcond]
    have hseedlen : (seedOf ov acc.current).length =
        min ov acc.current.length := seedOf_length h1
    unfold Inv5
    dsimp only
    refine ⟨wordsOK_append (seedOf_words_ok ov hcur) hwok, ?_, ?_⟩
    · intro hnil
      exact absurd hnil (by simp)
    · intro _
      rw [List.getLastD_concat, pySplitWords_join _ hcur]
      refine ⟨List.append_ne_nil_of_left_ne_nil
        (seedOf_ne_nil ov hcond.2) _, ?_, ?_⟩
      · rw [List.length_append, hseedlen]
        omega
      · have hdropseed : (seedOf ov acc.current ++ pySplitWords s).drop
            (min ov acc.current.length) = pySplitWords s := by
          rw [← hseedlen, List.drop_left]
        rw [hdropseed, inv5_flush ⟨hcur, hempty, hlast⟩ hcond.2]
  · rw [chunkStep_neg cs ov acc s hcond]
    unfold Inv5
    dsimp only
    refine ⟨wordsOK_append hcur hwok, ?_, ?_⟩
    · intro hnil
      rw [hempty hnil]
    · intro hne
      obtain ⟨hne', hle, hcov⟩ := hlast hne
      refine ⟨List.append_ne_nil_of_left_ne_nil hne' _, ?_, ?_⟩
      · rw [List.length_append]
        omega
      · rw [List.drop_append_of_le_length hle, ← List.append_assoc, hcov]

theorem inv5_foldl (cs : ℕ) {ov : ℕ} (h1 : 1 ≤ ov) :
    ∀ (sents : List (List Char)) (acc : ChunkAcc) (T : List (List Char)),
      Inv5 ov acc T →
      Inv5 ov (List.foldl (chunkStep cs ov) acc sents)
        (T ++ sents.flatMap pySplitWords) := by
  intro sents
  induction sents with
  | nil =>
    intro acc T h
    rw [List.flatMap_nil, List.append_nil]
    exact h
  | cons s rest ih =>
    intro acc T h
    rw [List.foldl_cons, List.flatMap_cons, ← List.append_assoc]
    exact ih _ _ (inv5_step cs h1 acc s h)

/-- Counterexample to C5 as stated: with `overlap = 0` the Python slice
`current_chunk[-0:]` seeds the next chunk with the whole previous chunk,
so dropping the spec's `min(overlap, ·) = 0`-word seeds leaves every word
of the first chunk duplicated: on `"a b. c d."` with `chunk_size = 2`
the chunks are `"a b."` and `"a b. c d."`, and the seed-stripped word
stream repeats `a b.`. -/
theorem claim_C5_counterexample :
    seedStripped 0 (chunk_text 2 0 ("a b. c d.").data) =
        [("a").data, ("b.").data, ("a").data, ("b.").data,
          ("c").data, ("d.").data] ∧
      pySplitWords (normText ("a b. c d.").data) =
        [("a").data, ("b.").data, ("c").data, ("d.").data] ∧
      seedStripped 0 (chunk_text 2 0 ("a b. c d.").data) ≠
        pySplitWords (normText ("a b. c d.").data) := by
  refine ⟨by decide, by decide, by decide⟩

/-- C5 amended: for every input text, chunk size and every
`overlap ≥ 1`, removing each chunk's leading seed — the trailing
`min(overlap, |words of previous chunk|)` words carried over — and
concatenating reconstructs exactly the word stream of the
whitespace-normalized source text.  (For `overlap = 0` the claim fails:
the Python slice `[-0:]` carries the whole previous chunk, duplicating
its words.) -/
theorem claim_C5_amended : ∀ (cs ov : ℕ) (text : List Char), 1 ≤ ov →
    seedStripped ov (chunk_text cs ov text) =
      pySplitWords (normText text) := by
  intro cs ov text h1
  unfold chunk_text
  have hinv : Inv5 ov (List.foldl (chunkStep cs ov) ⟨[], [], 0⟩
      (sent_tokenize text))
      ([] ++ (sent_tokenize text).flatMap pySplitWords) := by
    refine inv5_foldl cs h1 (sent_tokenize text) ⟨[], [], 0⟩ [] ?_
    refine ⟨wordsOK_nil, fun _ => rfl, ?_⟩
    intro hne
    exact absurd rfl hne
  rw [List.nil_append, sent_tokenize_flatMap] at hinv
  dsimp only
  split
  · exact inv5_flush hinv (by assumption)
  · rename_i hcur
    rw [Decidable.not_not] at hcur
    obtain ⟨-, hempty, hlast⟩ := hinv
    by_cases hc : (List.foldl (chunkStep cs ov) ⟨[], [], 0⟩
        (sent_tokenize text)).chunks = []
    · rw [hc]
      show ([] : List (List Char)) = _
      rw [← hempty hc, hcur]
    · exact absurd hcur (by
        intro h'
        exact (hlast hc).1 h')

/-- Witness for the amended C5 at a concrete text and `overlap = 1`. -/
theorem claim_C5_amended_witness :
    (1 : ℕ) ≤ 1 ∧
      seedStripped 1 (chunk_text 2 1 ("a b. c d. e f.").data) =
        pySplitWords (normText ("a b. c d. e f.").data) :=
  ⟨by decide, claim_C5_amended 2 1 ("a b. c d. e f.").data (by decide)⟩

/-! ## Claim C2 — index build validation -/

/-- Counterexample to C2 as stated: building with 1 vector and 2 chunk
documents (a count mismatch) does not fail with a `DimensionMismatch`
error — it succeeds, storing both as they are. -/
theorem claim_C2_counterexample :
    build_index 2 [[0, 0]] [⟨1, none⟩, ⟨2, none⟩] =
        Except.ok ⟨2, [[0, 0]], [⟨1, none⟩, ⟨2, none⟩]⟩ ∧
      ([[(0 : ℚ), 0]] : List (List ℚ)).length ≠
        ([⟨1, none⟩, ⟨2, none⟩] : List Doc).length :=
  ⟨rfl, by decide⟩

/-- C2 amended: `build_index` succeeds iff the embeddings are non-empty
and every vector's length equals the index dimension; the vector/chunk
count is never compared, so a count mismatch does not fail.  (The
failures are the errors of the underlying array conversion and FAISS
`add`, the spec's `DimensionMismatch` condition.) -/
theorem claim_C2_amended : ∀ (dim : ℕ) (emb : List (List ℚ))
    (docs : List Doc),
    (∃ st, build_index dim emb docs = Except.ok st) ↔
      (emb ≠ [] ∧ ∀ row ∈ emb, row.length = dim) := by
  intro dim emb docs
  cases emb with
  | nil =>
    simp only [build_index]
    constructor
    · rintro ⟨st, hst⟩
      exact absurd hst (by simp)
    · rintro ⟨hne, _⟩
      exact absurd rfl hne
  | cons r rest =>
    simp only [build_index]
    constructor
    · rintro ⟨st, hst⟩
      split_ifs at hst with h1 h2
      · refine ⟨List.cons_ne_nil r rest, ?_⟩
        intro row hrow
        rcases List.mem_cons.mp hrow with hr | hr
        · rw [hr]; exact h2
        · have := (List.all_eq_true.mp h1) row hr
          rw [decide_eq_true_eq] at this
          rw [this]; exact h2
    · rintro ⟨-, hall⟩
      have h2 : r.length = dim := hall r (List.mem_cons_self r rest)
      have h1 : rest.all (fun row => decide (row.length = r.length)) = true := by
        rw [List.all_eq_true]
        intro row hrow
        rw [decide_eq_true_eq, hall row (List.mem_cons_of_mem r hrow), h2]
      rw [if_pos h1, if_pos h2]
      exact ⟨_, rfl⟩

/-! ## Lemmas about the k-NN search model -/

theorem mapM_except_eq_ok {α β ε : Type} (f : α → Except ε β) :
    ∀ l : List α, (∀ a ∈ l, ∃ b, f a = Except.ok b) →
      ∃ res, l.mapM f = Except.ok res ∧ res.length = l.length := by
  intro l
  induction l with
  | nil => intro _; exact ⟨[], rfl, rfl⟩
  | cons a rest ih =>
    intro h
    obtain ⟨b, hb⟩ := h a (List.mem_cons_self a rest)
    obtain ⟨res, hres, hlen⟩ := ih (fun x hx => h x (List.mem_cons_of_mem a hx))
    refine ⟨b :: res, ?_, by simp [hlen]⟩
    rw [List.mapM_cons, hb, hres]
    rfl

theorem mapM_except_ok_forall₂ {α β ε : Type} (f : α → Except ε β) :
    ∀ (l : List α) (res : List β), l.mapM f = Except.ok res →
      List.Forall₂ (fun a b => f a = Except.ok b) l res := by
  intro l
  induction l with
  | nil =>
    intro res h
    cases res with
    | nil => exact List.Forall₂.nil
    | cons b tl =>
      rw [List.mapM_nil] at h
      exact absurd h (by simp [pure, Except.pure])
  | cons a rest ih =>
    intro res h
    rw [List.mapM_cons] at h
    cases ha : f a with
    | error e => rw [ha] at h; exact absurd h (by simp [Bind.bind, Except.bind])
    | ok b =>
      rw [ha] at h
      cases hrest : rest.mapM f with
      | error e =>
        rw [hrest] at h
        exact absurd h (by simp [Bind.bind, Except.bind])
      | ok tl =>
        rw [hrest] at h
        have : res = b :: tl := by
          have h' : (Except.ok (b :: tl) : Except ε (List β)) = Except.ok res := h
          exact (Except.ok.inj h').symm
        subst this
        exact List.Forall₂.cons ha (ih tl hrest)

theorem knnSearch_length (xb : List (List ℚ)) (q : List ℚ) (k : ℕ) :
    (knnSearch xb q k).length = k := by
  unfold knnSearch
  rw [List.length_append, List.length_map, List.length_replicate]
  have h : (List.take k (List.insertionSort knnLE
      ((xb.map (sqDist q)).enum))).length ≤ k := by
    rw [List.length_take]
    exact min_le_left _ _
  omega

/-- Every entry of the k-NN result is either a genuine neighbor — label
in range, distance the squared distance to a stored vector — or a
padding entry `(FLT_MAX, -1)`. -/
theorem knnSearch_mem (xb : List (List ℚ)) (q : List ℚ) (k : ℕ) :
    ∀ p ∈ knnSearch xb q k,
      (∃ j < xb.length, p.2 = (j : ℤ) ∧ ∃ v ∈ xb, p.1 = sqDist q v) ∨
        p = (fltMax, -1) := by
  intro p hp
  unfold knnSearch at hp
  rcases List.mem_append.mp hp with hmem | hmem
  · left
    obtain ⟨pr, hpr, hpe⟩ := List.mem_map.mp hmem
    have hsorted : pr ∈ List.insertionSort knnLE ((xb.map (sqDist q)).enum) :=
      List.mem_of_mem_take hpr
    have hpairs : pr ∈ (xb.map (sqDist q)).enum :=
      (List.perm_insertionSort knnLE _).mem_iff.mp hsorted
    have hget := List.mem_enum_iff_getElem?.mp hpairs
    obtain ⟨hlt, hgete⟩ := List.getElem?_eq_some_iff.mp hget
    rw [List.length_map] at hlt
    refine ⟨pr.1, hlt, by rw [← hpe], ?_⟩
    have hmem2 : pr.2 ∈ xb.map (sqDist q) :=
      List.getElem?_mem hget
    obtain ⟨v, hv, hveq⟩ := List.mem_map.mp hmem2
    exact ⟨v, hv, by rw [← hpe, ← hveq]⟩
  · right
    exact List.eq_of_mem_replicate hmem

theorem pyGet_nonneg_ok {α : Type} (l : List α) (j : ℕ) (h : j < l.length) :
    ∃ a, pyGet l (j : ℤ) = some a := by
  unfold pyGet
  rw [if_neg (by omega), Int.toNat_ofNat, List.get?_eq_get h]
  exact ⟨_, rfl⟩

theorem pyGet_neg_one_ok {α : Type} (l : List α) (h : l ≠ []) :
    ∃ a, pyGet l (-1) = some a := by
  unfold pyGet
  have hlen : 1 ≤ l.length := by
    cases l with
    | nil => exact absurd rfl h
    | cons a t => simp
  rw [if_pos (by omega)]
  have h1 : ((-(-1 : ℤ)).toNat) = 1 := rfl
  rw [h1, if_pos hlen]
  have hlt : l.length - 1 < l.length := by omega
  rw [List.get?_eq_get hlt]
  exact ⟨_, rfl⟩

/-! ## Claim C1 — top-k clamping -/

/-- Counterexample to C1 as stated: an index holding 1 entry searched
with `top_k = 2` returns 2 results, not 1 — FAISS pads with label `-1`
and distance `FLT_MAX`, and the formatting loop keeps the padding entry
(Python `documents[-1]` resolves to the last document). -/
theorem claim_C1_counterexample :
    resultCount (search ⟨2, [[0, 0]], [⟨1, none⟩]⟩ [0, 0] 2) = some 2 ∧
      some 2 ≠ some (⟨2, [[0, 0]], [⟨1, none⟩]⟩ : RetrievalState).xb.length :=
  ⟨by rfl, by decide⟩

/-- C1 amended: `top_k` is not clamped — against an index whose
documents list covers the stored vectors, `search` returns exactly
`top_k` results for every `top_k ≥ 1`, padding with sentinel entries
(distance `FLT_MAX`, the last document via Python's `-1` indexing) when
`top_k` exceeds the number of indexed entries. -/
theorem claim_C1_amended : ∀ (st : RetrievalState) (q : List ℚ) (k : ℕ),
    q.length = st.dimension → k ≠ 0 →
    st.xb.length ≤ st.documents.length → st.documents ≠ [] →
    ∃ res, search st q k = Except.ok res ∧ res.length = k := by
  intro st q k hdim hk hcover hne
  unfold search searchFormat
  rw [if_neg (by rw [hdim]; exact fun h => h rfl), if_neg hk]
  obtain ⟨res, hres, hlen⟩ :=
    mapM_except_eq_ok (formatOne st.documents)
      ((knnSearch st.xb q k).enum) (fun p hp => by
        rcases knnSearch_mem st.xb q k p.2 (enum_snd_mem hp) with
          ⟨j, hj, hje, -⟩ | hpad
        · obtain ⟨doc, hdoc⟩ :=
            pyGet_nonneg_ok st.documents j (lt_of_lt_of_le hj hcover)
          have heq : formatOne st.documents p =
              Except.ok ⟨p.1 + 1, doc, 1 / (1 + p.2.1), p.2.1⟩ := by
            unfold formatOne
            rw [hje, hdoc]
          exact ⟨_, heq⟩
        · obtain ⟨doc, hdoc⟩ := pyGet_neg_one_ok st.documents hne
          have hje : p.2.2 = (-1 : ℤ) := by rw [hpad]
          have heq : formatOne st.documents p =
              Except.ok ⟨p.1 + 1, doc, 1 / (1 + p.2.1), p.2.1⟩ := by
            unfold formatOne
            rw [hje, hdoc]
          exact ⟨_, heq⟩)
  refine ⟨res, hres, ?_⟩
  rw [hlen, List.enum_length, knnSearch_length]

/-- Witness for the amended C1: a 1-entry index searched with
`top_k = 3` yields exactly 3 results. -/
theorem claim_C1_amended_witness :
    ([(0 : ℚ), 0] : List ℚ).length =
        (⟨2, [[0, 0]], [⟨1, none⟩]⟩ : RetrievalState).dimension ∧
      (3 : ℕ) ≠ 0 ∧
      (⟨2, [[0, 0]], [⟨1, none⟩]⟩ : RetrievalState).xb.length ≤
        (⟨2, [[0, 0]], [⟨1, none⟩]⟩ : RetrievalState).documents.length ∧
      (⟨2, [[0, 0]], [⟨1, none⟩]⟩ : RetrievalState).documents ≠ [] ∧
      ∃ res, search ⟨2, [[0, 0]], [⟨1, none⟩]⟩ [0, 0] 3 = Except.ok res ∧
        res.length = 3 :=
  ⟨by decide, by decide, by decide, by decide,
    claim_C1_amended ⟨2, [[0, 0]], [⟨1, none⟩]⟩ [0, 0] 3
      (by decide) (by decide) (by decide) (by decide)⟩

/-! ## Claim C4 — result ordering, ranks and similarity -/

instance : IsTotal (ℕ × ℚ) knnLE :=
  ⟨fun a b => by
    unfold knnLE
    rcases lt_trichotomy a.2 b.2 with h | h | h
    · exact Or.inl (Or.inl h)
    · rcases Nat.le_total a.1 b.1 with h' | h'
      · exact Or.inl (Or.inr ⟨h, h'⟩)
      · exact Or.inr (Or.inr ⟨h.symm, h'⟩)
    · exact Or.inr (Or.inl h)⟩

instance : IsTrans (ℕ × ℚ) knnLE :=
  ⟨fun a b c hab hbc => by
    unfold knnLE at *
    rcases hab with h1 | ⟨h1, h1'⟩ <;> rcases hbc with h2 | ⟨h2, h2'⟩
    · exact Or.inl (lt_trans h1 h2)
    · exact Or.inl (h2 ▸ h1)
    · exact Or.inl (h1 ▸ h2)
    · exact Or.inr ⟨h1.trans h2, h1'.trans h2'⟩⟩

theorem knnLE_le {a b : ℕ × ℚ} (h : knnLE a b) : a.2 ≤ b.2 := by
  rcases h with h | ⟨h, -⟩
  · exact le_of_lt h
  · exact le_of_eq h

theorem sqDist_nonneg (q v : List ℚ) : 0 ≤ sqDist q v := by
  unfold sqDist
  refine List.sum_nonneg ?_
  intro x hx
  obtain ⟨p, -, hpe⟩ := List.mem_map.mp hx
  rw [← hpe]
  exact mul_self_nonneg _

theorem fltMax_nonneg : (0 : ℚ) ≤ fltMax := by
  unfold fltMax
  norm_num

/-- Every distance reported by the k-NN search is non-negative and, when
all genuine distances are float-representable, at most `FLT_MAX`. -/
theorem knnSearch_dist_bounds (xb : List (List ℚ)) (q : List ℚ) (k : ℕ)
    (hb : ∀ v ∈ xb, sqDist q v ≤ fltMax) :
    ∀ p ∈ knnSearch xb q k, 0 ≤ p.1 ∧ p.1 ≤ fltMax := by
  intro p hp
  rcases knnSearch_mem xb q k p hp with ⟨-, -, -, v, hv, hveq⟩ | hpad
  · rw [hveq]
    exact ⟨sqDist_nonneg q v, hb v hv⟩
  · rw [hpad]
    exact ⟨fltMax_nonneg, le_refl _⟩

/-- The distance column of the k-NN result is non-decreasing (the first
`min k n` entries are sorted ascending; the padding entries carry
`FLT_MAX`, which dominates every float-representable distance). -/
theorem knnSearch_distances_pairwise (xb : List (List ℚ)) (q : List ℚ)
    (k : ℕ) (hb : ∀ v ∈ xb, sqDist q v ≤ fltMax) :
    List.Pairwise (· ≤ ·) ((knnSearch xb q k).map Prod.fst) := by
  unfold knnSearch
  rw [List.map_append, List.map_map, List.map_replicate]
  have hsorted : List.Sorted knnLE
      (List.insertionSort knnLE ((xb.map (sqDist q)).enum)) :=
    List.sorted_insertionSort knnLE _
  have htop : List.Pairwise knnLE
      ((List.insertionSort knnLE ((xb.map (sqDist q)).enum)).take k) :=
    List.Pairwise.sublist (List.take_sublist k _) hsorted
  rw [List.pairwise_append]
  refine ⟨?_, ?_, ?_⟩
  · exact htop.map (Prod.fst ∘ fun p : ℕ × ℚ => (p.2, (p.1 : ℤ)))
      (fun a b hab => knnLE_le hab)
  · rw [List.pairwise_replicate]
    exact Or.inr (le_refl _)
  · intro a ha b hbmem
    have hbb : b = fltMax := List.eq_of_mem_replicate hbmem
    obtain ⟨pr, hpr, hpe⟩ := List.mem_map.mp ha
    have hpairs : pr ∈ (xb.map (sqDist q)).enum :=
      (List.perm_insertionSort knnLE _).mem_iff.mp (List.mem_of_mem_take hpr)
    have hmem2 : pr.2 ∈ xb.map (sqDist q) :=
      List.getElem?_mem (List.mem_enum_iff_getElem?.mp hpairs)
    obtain ⟨v, hv, hveq⟩ := List.mem_map.mp hmem2
    rw [hbb, ← hpe]
    show pr.2 ≤ fltMax
    rw [← hveq]
    exact hb v hv

theorem formatOne_ok_fields (docs : List Doc) (p : ℕ × ℚ × ℤ)
    (r : RetrievalResult) (h : formatOne docs p = Except.ok r) :
    r.rank = p.1 + 1 ∧ r.similarity = 1 / (1 + p.2.1) ∧
      r.distance = p.2.1 := by
  unfold formatOne at h
  cases hg : pyGet docs p.2.2 with
  | none =>
    rw [hg] at h
    exact absurd h (by simp)
  | some doc =>
    rw [hg] at h
    have := Except.ok.inj h
    rw [← this]
    exact ⟨rfl, rfl, rfl⟩

theorem forall₂_map_eq {α β γ : Type} {R : α → β → Prop} (g : β → γ)
    (h : α → γ) (hgh : ∀ a b, R a b → g b = h a) :
    ∀ {l₁ : List α} {l₂ : List β}, List.Forall₂ R l₁ l₂ →
      l₂.map g = l₁.map h := by
  intro l₁ l₂ hf
  induction hf with
  | nil => rfl
  | cons hab _ ih => simp [ih, hgh _ _ hab]

theorem forall₂_mem_right {α β : Type} {R : α → β → Prop}
    {l₁ : List α} {l₂ : List β} (hf : List.Forall₂ R l₁ l₂) {b : β}
    (hb : b ∈ l₂) : ∃ a ∈ l₁, R a b := by
  induction hf with
  | nil => cases hb
  | cons hab _ ih =>
    rcases List.mem_cons.mp hb with hb' | hb'
    · exact ⟨_, List.mem_cons_self _ _, hb' ▸ hab⟩
    · obtain ⟨a, ha, har⟩ := ih hb'
      exact ⟨a, List.mem_cons_of_mem _ ha, har⟩

/-- C4: For every successful search call (over distances within float
range), the result list is ordered by non-decreasing distance, the rank
of the i-th result is `i` (1-based), and each similarity equals
`1 / (1 + distance)`, which lies in `(0, 1]` since every distance is
non-negative. -/
theorem claim_C4 : ∀ (st : RetrievalState) (q : List ℚ) (k : ℕ)
    (res : List RetrievalResult),
    search st q k = Except.ok res →
    (∀ v ∈ st.xb, sqDist q v ≤ fltMax) →
    List.Chain' (fun r₁ r₂ => r₁.distance ≤ r₂.distance) res ∧
      res.map (fun r => r.rank) = List.range' 1 res.length ∧
      ∀ r ∈ res, r.similarity = 1 / (1 + r.distance) ∧
        0 ≤ r.distance ∧ 0 < r.similarity ∧ r.similarity ≤ 1 := by
  intro st q k res hok hb
  unfold search at hok
  split_ifs at hok
  unfold searchFormat at hok
  have hf2 := mapM_except_ok_forall₂ (formatOne st.documents) _ res hok
  have hlen : res.length = (knnSearch st.xb q k).length := by
    rw [← hf2.length_eq, List.enum_length]
  have hdists : res.map (fun r => r.distance) =
      (knnSearch st.xb q k).map Prod.fst := by
    rw [forall₂_map_eq (fun r => r.distance) (fun p => p.2.1)
      (fun a b hab => (formatOne_ok_fields _ a b hab).2.2) hf2]
    rw [show (fun p : ℕ × ℚ × ℤ => p.2.1) =
      (Prod.fst ∘ Prod.snd) from rfl]
    rw [← List.map_map, List.enum_map_snd]
  refine ⟨?_, ?_, ?_⟩
  · have hpw : List.Pairwise (· ≤ ·) (res.map (fun r => r.distance)) := by
      rw [hdists]
      exact knnSearch_distances_pairwise st.xb q k hb
    exact (List.pairwise_map.mp hpw).chain'
  · rw [forall₂_map_eq (fun r => r.rank) (fun p => p.1 + 1)
      (fun a b hab => (formatOne_ok_fields _ a b hab).1) hf2]
    rw [show (fun p : ℕ × ℚ × ℤ => p.1 + 1) =
      ((fun i => i + 1) ∘ Prod.fst) from rfl]
    rw [← List.map_map, List.enum_map_fst, hlen]
    rw [List.range'_eq_map_range]
    exact List.map_congr_left (fun i _ => Nat.add_comm i 1)
  · intro r hr
    obtain ⟨p, hp, hrel⟩ := forall₂_mem_right hf2 hr
    obtain ⟨-, hsim, hdist⟩ := formatOne_ok_fields _ p r hrel
    have hd0p : 0 ≤ p.2.1 :=
      (knnSearch_dist_bounds st.xb q k hb p.2 (enum_snd_mem hp)).1
    have hpos : (0 : ℚ) < 1 + p.2.1 := by linarith
    refine ⟨by rw [hsim, hdist], by rw [hdist]; exact hd0p, ?_, ?_⟩
    · rw [hsim]
      exact div_pos one_pos hpos
    · rw [hsim, div_le_one hpos]
      linarith

/-- Witness for C4 at a concrete 2-entry index: the results are sorted
by distance, carry ranks 1 and 2 and similarities `1 / (1 + d)`. -/
theorem claim_C4_witness :
    (search ⟨2, [[0, 0], [1, 0]], [⟨1, none⟩, ⟨2, none⟩]⟩ [1, 0] 2 =
        Except.ok [⟨1, ⟨2, none⟩, 1, 0⟩, ⟨2, ⟨1, none⟩, 1 / 2, 1⟩]) ∧
      (∀ v ∈ ([[0, 0], [1, 0]] : List (List ℚ)),
        sqDist [1, 0] v ≤ fltMax) ∧
      (List.Chain' (fun r₁ r₂ => r₁.distance ≤ r₂.distance)
          ([⟨1, ⟨2, none⟩, 1, 0⟩, ⟨2, ⟨1, none⟩, 1 / 2, 1⟩] :
            List RetrievalResult) ∧
        ([⟨1, ⟨2, none⟩, 1, 0⟩, ⟨2, ⟨1, none⟩, 1 / 2, 1⟩] :
            List RetrievalResult).map (fun r => r.rank) =
          List.range' 1 ([⟨1, ⟨2, none⟩, 1, 0⟩,
            ⟨2, ⟨1, none⟩, 1 / 2, 1⟩] : List RetrievalResult).length ∧
        ∀ r ∈ ([⟨1, ⟨2, none⟩, 1, 0⟩, ⟨2, ⟨1, none⟩, 1 / 2, 1⟩] :
            List RetrievalResult),
          r.similarity = 1 / (1 + r.distance) ∧ 0 ≤ r.distance ∧
            0 < r.similarity ∧ r.similarity ≤ 1) :=
  ⟨by norm_num [search, searchFormat, knnSearch, sqDist, formatOne, pyGet,
      knnLE, fltMax, List.insertionSort, List.orderedInsert,
      List.mapM.loop, List.enum, List.enumFrom, Bind.bind, Except.bind,
      Pure.pure, Except.pure],
    by norm_num [sqDist, fltMax],
    claim_C4 ⟨2, [[0, 0], [1, 0]], [⟨1, none⟩, ⟨2, none⟩]⟩ [1, 0] 2
      [⟨1, ⟨2, none⟩, 1, 0⟩, ⟨2, ⟨1, none⟩, 1 / 2, 1⟩]
      (by norm_num [search, searchFormat, knnSearch, sqDist, formatOne,
        pyGet, knnLE, fltMax, List.insertionSort, List.orderedInsert,
        List.mapM.loop, List.enum, List.enumFrom, Bind.bind, Except.bind,
        Pure.pure, Except.pure])
      (by norm_num [sqDist, fltMax])⟩

end Rag
